import Mathlib

/-!
# Verification of the legal_app document ingestion / retrieval pipeline

Shallow embedding of the `legal_search_service` core (text normalizer from
`ingestion/preprocess.py`), of the React frontend's research Redux slice
(`frontend/src/store/researchSlice.js`), of the document upload client
(`frontend/src/services/documents.js`), and of the spec-described chunker,
vector index, ingestion pipeline and retrieval/answering engine whose
implementation files are not part of the visible source tree.
-/

set_option maxHeartbeats 1000000

namespace LegalApp

/-! ## Text Normalizer — `legal_search_service/ingestion/preprocess.py`

The module defines
`clean_text(text) = re.sub(r'\s+', ' ', text).strip()`,
`normalize_text(text) = text` (pass-through, lowercasing deferred), and
`preprocess_content(content) = normalize_text(clean_text(content))`.
Characters are modelled as `Char`, strings as `List Char` (with `String`
wrappers below); `\s` is the ASCII whitespace class. -/

/-- The regex class `\s` (ASCII): space, tab, newline, carriage return,
vertical tab, form feed. -/
def isWs (c : Char) : Bool :=
  c == ' ' || c == '\t' || c == '\n' || c == '\r' || c == '\x0b' || c == '\x0c'

/-- Embeds `re.sub(r'\s+', ' ', ·)`: every maximal run of whitespace becomes one
space.  The flag records whether the previous character was whitespace
(i.e. whether we are in the middle of a run already replaced). -/
def collapseWs : Bool → List Char → List Char
  | _, [] => []
  | prevWs, c :: cs =>
    if isWs c then
      if prevWs then collapseWs true cs
      else ' ' :: collapseWs true cs
    else c :: collapseWs false cs

/-- Python `str.strip()`: drop leading and trailing whitespace. -/
def stripChars (l : List Char) : List Char :=
  ((l.dropWhile isWs).reverse.dropWhile isWs).reverse

/-- The function `clean_text` from `preprocess.py`: `re.sub(r'\s+', ' ', text).strip()`. -/
def cleanTextL (l : List Char) : List Char :=
  stripChars (collapseWs false l)

/-- The function `normalize_text` from `preprocess.py`: returns its input unchanged
(only logs; lowercasing is a comment for later). -/
def normalizeTextL (l : List Char) : List Char := l

/-- The function `preprocess_content` from `preprocess.py`:
`content = clean_text(content); content = normalize_text(content)`. -/
def preprocessContentL (l : List Char) : List Char :=
  normalizeTextL (cleanTextL l)

/-- String-typed `clean_text`, as in the source. -/
def clean_text (s : String) : String := ⟨cleanTextL s.data⟩

/-- String-typed `normalize_text`, as in the source. -/
def normalize_text (s : String) : String := ⟨normalizeTextL s.data⟩

/-- String-typed `preprocess_content`, as in the source. -/
def preprocess_content (s : String) : String := normalize_text (clean_text s)

/-! ### Normal forms for cleaned text -/

/-- Whether the first character is whitespace (`false` on the empty list). -/
def headWs : List Char → Bool
  | [] => false
  | c :: _ => isWs c

/-- Whether the last character is whitespace (`false` on the empty list). -/
def lastWs (l : List Char) : Bool :=
  match l.getLast? with
  | some c => isWs c
  | none => false

/-- No two adjacent whitespace characters. -/
def noRun : List Char → Bool
  | [] => true
  | c :: cs => (!(isWs c && headWs cs)) && noRun cs

/-- All whitespace characters in the list are the plain space. -/
def wsSpace (l : List Char) : Bool :=
  l.all fun c => !(isWs c) || c == ' '

/-! ## Research Redux slice — `frontend/src/store/researchSlice.js`

The slice's reducers and the extraReducer handlers of the two async thunks
(`fetchLegalDocResults`, `fetchRagAnswer`) are embedded as a step function on
an explicit state record.  JSON numbers (scores) are modelled as `Rat`;
`null`-able fields as `Option`. -/

/-- A case-search result, the element shape of `searchResults`. -/
structure CaseResult where
  id : String
  title : String
  content : String
  source : String
  relevance_score : Rat
deriving Repr, DecidableEq

/-- The `prediction` payload shape (list-valued detail fields of the
simulated payload are carried opaquely by the reducers and omitted). -/
structure Prediction where
  prediction : String
  confidence : Rat
  llm_model : String
deriving Repr, DecidableEq

/-- An element of `legalDocResults` (`/search` response `results`). -/
structure LegalDocResult where
  source : String
  text : String
  score : Rat
deriving Repr, DecidableEq

/-- An element of `ragCitations` (`/query` response `citations`). -/
structure Citation where
  source : String
  text_snippet : String
  score : Rat
deriving Repr, DecidableEq

/-- The `research` slice state. -/
structure ResearchState where
  searchQuery : String
  searchResults : List CaseResult
  selectedCase : Option CaseResult
  prediction : Option Prediction
  loading : Bool
  error : Option String
  legalDocQuery : String
  legalDocResults : List LegalDocResult
  legalDocLoading : Bool
  legalDocError : Option String
  ragQuestion : String
  ragAnswer : String
  ragCitations : List Citation
  ragLoading : Bool
  ragError : Option String
deriving Repr, DecidableEq

/-- The `initialState` of the slice. -/
def initialState : ResearchState where
  searchQuery := ""
  searchResults := []
  selectedCase := none
  prediction := none
  loading := false
  error := none
  legalDocQuery := ""
  legalDocResults := []
  legalDocLoading := false
  legalDocError := none
  ragQuestion := ""
  ragAnswer := ""
  ragCitations := []
  ragLoading := false
  ragError := none

/-- Every action the slice reducer handles: the named reducers plus the
pending/fulfilled/rejected lifecycle actions of the two thunks, with the
payloads (and `action.meta.arg` parts) the handlers read. -/
inductive ResearchAction where
  | searchCasesStart
  | searchCasesSuccess (payload : List CaseResult)
  | searchCasesFailure (payload : String)
  | predictOutcomeStart
  | predictOutcomeSuccess (payload : Prediction)
  | predictOutcomeFailure (payload : String)
  | setSearchQuery (payload : String)
  | setSelectedCase (payload : Option CaseResult)
  | clearPrediction
  | clearError
  | setLegalDocQuery (payload : String)
  | clearLegalDocResults
  | legalDocsPending
  | legalDocsFulfilled (payload : List LegalDocResult) (argQuery : String)
  | legalDocsRejected (payload : String)
  | ragPending (argQuestion : String)
  | ragFulfilled (answer : String) (citations : List Citation)
  | ragRejected (payload : String)
deriving Repr, DecidableEq

/-- The slice reducer (`reducers` and `extraReducers` of `researchSlice`). -/
def researchReducer (s : ResearchState) : ResearchAction → ResearchState
  | .searchCasesStart => { s with loading := true, error := none }
  | .searchCasesSuccess p => { s with loading := false, searchResults := p }
  | .searchCasesFailure p => { s with loading := false, error := some p }
  | .predictOutcomeStart => { s with loading := true, error := none }
  | .predictOutcomeSuccess p => { s with loading := false, prediction := some p }
  | .predictOutcomeFailure p => { s with loading := false, error := some p }
  | .setSearchQuery q => { s with searchQuery := q }
  | .setSelectedCase c => { s with selectedCase := c }
  | .clearPrediction => { s with prediction := none }
  | .clearError => { s with error := none, legalDocError := none }
  | .setLegalDocQuery q => { s with legalDocQuery := q }
  | .clearLegalDocResults =>
      { s with legalDocResults := [], legalDocQuery := "", legalDocError := none,
               ragQuestion := "", ragAnswer := "", ragCitations := [],
               ragError := none }
  | .legalDocsPending => { s with legalDocLoading := true, legalDocError := none }
  | .legalDocsFulfilled p q =>
      { s with legalDocLoading := false, legalDocResults := p, legalDocQuery := q }
  | .legalDocsRejected p =>
      { s with legalDocLoading := false, legalDocError := some p,
               legalDocResults := [] }
  | .ragPending q =>
      { s with ragLoading := true, ragError := none, ragQuestion := q,
               ragAnswer := "", ragCitations := [] }
  | .ragFulfilled a c =>
      { s with ragLoading := false, ragAnswer := a, ragCitations := c }
  | .ragRejected p =>
      { s with ragLoading := false, ragError := some p, ragAnswer := "",
               ragCitations := [] }

/-- The state after dispatching a list of actions starting from `s`. -/
def runActions (s : ResearchState) (l : List ResearchAction) : ResearchState :=
  l.foldl researchReducer s

/-- The invariant of claim C8: a visible RAG error excludes a visible RAG
answer or citations. -/
def ragInv (s : ResearchState) : Prop :=
  s.ragError ≠ none → s.ragAnswer = "" ∧ s.ragCitations = []

instance : DecidablePred ragInv := fun s => by
  unfold ragInv; infer_instance

/-- The guard under which C8's own description of the handlers ("fulfilled
runs with the error cleared") is accurate for a step. -/
def stepOk (s : ResearchState) : ResearchAction → Prop
  | .ragFulfilled _ _ => s.ragError = none
  | _ => True

/-- All steps of a run satisfy the guard. -/
def okRun : ResearchState → List ResearchAction → Prop
  | _, [] => True
  | s, a :: rest => stepOk s a ∧ okRun (researchReducer s a) rest

/-! ## Document upload client — `frontend/src/services/documents.js` -/

/-- A JavaScript FormData entry value: a string or a File object. -/
inductive FormValue where
  | str (s : String)
  | file (name : String) (size : Nat) (mime : String)
deriving Repr, DecidableEq

/-- JS truthiness of a FormData value: a File object is always truthy, a
string is truthy iff non-empty. -/
def FormValue.truthy : FormValue → Bool
  | .str s => s != ""
  | .file _ _ _ => true

/-- A FormData object: ordered key/value entries. -/
abbrev FormData := List (String × FormValue)

/-- Embeds `formData.get(k)`: the first value stored under `k`, or null. -/
def FormData.get (fd : FormData) (k : String) : Option FormValue :=
  (fd.find? fun e => e.1 == k).map Prod.snd

/-- JS truthiness of `formData.get(k)` (null is falsy). -/
def truthyGet (fd : FormData) (k : String) : Bool :=
  match FormData.get fd k with
  | none => false
  | some v => v.truthy

/-- Observable outcome of `documentAPI.uploadDocument`: either a rejected
promise carrying an error message (no network request made), or the POST
request that is issued. -/
inductive UploadOutcome where
  | reject (message : String)
  | post (path : String) (body : FormData)
deriving Repr, DecidableEq

/-- Embeds `documentAPI.uploadDocument(formData)`.  Here `userId` models
`JSON.parse(localStorage.getItem('user') || '\x7b\x7d').id` (`none` when the
stored user has no id). -/
def uploadDocument (userId : Option String) (fd : FormData) : UploadOutcome :=
  if !truthyGet fd "file" || !truthyGet fd "title" then
    .reject "Missing required fields: file and title"
  else
    let fd2 :=
      match userId with
      | some uid =>
        if !truthyGet fd "user_id" && uid != "" then
          fd ++ [("user_id", .str uid)]
        else fd
      | none => fd
    .post "/api/documents/upload" fd2

/-! ## Vector Index (Store) — spec §4.4

Modelled from the spec: the Vector Index implementation of
`legal_search_service` is not part of the visible source tree (only its
configuration, `.env.example`, survives), so the store is built from the
spec's contract: records keyed by `chunk_id` carrying `document_id`,
`vector` and snippet metadata; `upsert` replaces by key; `delete_document`
removes a document's records; `search` returns at most `top_k` records
ordered by score descending with ties broken by insertion order; dimension
mismatch is a hard error; vectors are `List Rat` (the spec leaves the exact
similarity metric open, §9, so the model fixes the inner product, which is
exactly representable over the rationals). -/

/-- A chunk key: owning document id paired with the chunk's sequence index
within that document. -/
abbrev ChunkKey := String × Nat

/-- Snippet metadata stored with a record. -/
structure ChunkMeta where
  source : String
  text : String
deriving Repr, DecidableEq

/-- One stored embedding record. -/
structure IndexRecord where
  chunk_id : ChunkKey
  document_id : String
  vector : List Rat
  metadata : ChunkMeta
deriving Repr, DecidableEq

/-- The Vector Index: a fixed dimension and the records in insertion
order. -/
structure VectorIndex where
  dim : Nat
  records : List IndexRecord
deriving Repr, DecidableEq

/-- Hard errors of the index (spec §7). -/
inductive IndexError where
  | dimensionMismatch
deriving Repr, DecidableEq

/-- A freshly created, empty index of dimension `d`. -/
def VectorIndex.mkEmpty (d : Nat) : VectorIndex := ⟨d, []⟩

/-- The operation `upsert(chunk_id, document_id, vector, metadata)`: replaces the record
with the same `chunk_id` if present, otherwise appends; rejects vectors of
mismatched dimension. -/
def VectorIndex.upsert (idx : VectorIndex) (r : IndexRecord) :
    Except IndexError VectorIndex :=
  if r.vector.length != idx.dim then .error .dimensionMismatch
  else if idx.records.any fun e => e.chunk_id == r.chunk_id then
    .ok { idx with
          records := idx.records.map fun e =>
            if e.chunk_id == r.chunk_id then r else e }
  else .ok { idx with records := idx.records ++ [r] }

/-- The operation `delete_document(document_id)`: removes all records of the document. -/
def VectorIndex.delete_document (idx : VectorIndex) (docId : String) :
    VectorIndex :=
  { idx with records := idx.records.filter fun e => e.document_id != docId }

/-- The fixed similarity metric: inner product of the two vectors. -/
def similarity (u v : List Rat) : Rat :=
  (List.zipWith (fun a b => a * b) u v).sum

/-- One search result: `(chunk_id, document_id, metadata, score)`, plus the
record's insertion position, carried to express the stable tie-break. -/
structure SearchHit where
  chunk_id : ChunkKey
  document_id : String
  metadata : ChunkMeta
  score : Rat
  insertedAt : Nat
deriving Repr, DecidableEq

/-- The retrieval priority order: strictly higher score first; equal scores
ordered by insertion position. -/
def hitBefore (a b : SearchHit) : Prop :=
  b.score < a.score ∨ (a.score = b.score ∧ a.insertedAt < b.insertedAt)

/-- Stable descending insertion: the incoming hit goes after every already
placed hit of greater or equal score. -/
def insertHit (r : SearchHit) : List SearchHit → List SearchHit
  | [] => [r]
  | x :: xs => if x.score < r.score then r :: x :: xs else x :: insertHit r xs

/-- Stable sort of the scored records, processed in insertion order. -/
def sortHits (l : List SearchHit) : List SearchHit :=
  l.foldl (fun acc r => insertHit r acc) []

/-- Records decorated with their insertion positions starting at `n`. -/
def withPos : Nat → List IndexRecord → List (Nat × IndexRecord)
  | _, [] => []
  | n, r :: rs => (n, r) :: withPos (n + 1) rs

/-- The operation `search(query_vector, top_k)`: at most `top_k` records, scored by the
fixed metric, descending, ties by insertion order; `DimensionMismatch` on a
query vector of the wrong length; an empty list (not an error) on an empty
index. -/
def VectorIndex.search (idx : VectorIndex) (qv : List Rat) (top_k : Nat) :
    Except IndexError (List SearchHit) :=
  if qv.length != idx.dim then .error .dimensionMismatch
  else
    let scored := (withPos 0 idx.records).map fun p =>
      ⟨p.2.chunk_id, p.2.document_id, p.2.metadata,
        similarity qv p.2.vector, p.1⟩
    .ok ((sortHits scored).take top_k)

/-! ## Retrieval & Answering Engine — spec §4.6

Modelled from the spec: the engine's implementation is not part of the
visible source tree.  Per request it embeds the question, retrieves top-K
passages, builds the grounding context in score-descending order, invokes
the generation backend, and returns `{answer, citations}`.  Unavailability
of either backend (after the bounded retries, which the model folds into a
single `Option`-returning call) degrades to a fixed apology with empty
citations; only the configuration error `DimensionMismatch` propagates as a
hard failure (§7). -/

/-- The two external backends.  `none` models `EmbeddingUnavailable` /
`GenerationFailure` after retries are exhausted. -/
structure RagBackends where
  embedQ : String → Option (List Rat)
  generate : String → List String → Option String

/-- Modelled from the spec: the fixed apology string of the degradation
contract (its exact wording is not in the visible source). -/
def apologyAnswer : String :=
  "Sorry, I am unable to answer your question right now. Please try again later."

/-- The `{answer, citations}` response shape of POST /query. -/
structure QueryResponse where
  answer : String
  citations : List Citation
deriving Repr, DecidableEq

/-- A citation derived from a retrieved hit: source document name, snippet,
similarity score. -/
def citationOfHit (h : SearchHit) : Citation :=
  ⟨h.metadata.source, h.metadata.text, h.score⟩

/-- The engine: `Received → Embedding → Retrieving → Generating →
{Answered | Degraded}`. -/
def answerQuestion (be : RagBackends) (idx : VectorIndex) (question : String)
    (top_k : Nat) : Except IndexError QueryResponse :=
  match be.embedQ question with
  | none => .ok ⟨apologyAnswer, []⟩
  | some qv =>
    match idx.search qv top_k with
    | .error e => .error e
    | .ok hits =>
      let context := hits.map fun h => h.metadata.text
      match be.generate question context with
      | none => .ok ⟨apologyAnswer, []⟩
      | some ans => .ok ⟨ans, hits.map citationOfHit⟩

/-! ## Chunker — spec §4.2

Modelled from the spec: the chunker implementation is not part of the
visible source tree.  `chunk(document_id, normalized_text, max_chunk_size,
overlap_size)` splits preferentially at sentence boundaries within the size
budget (when the boundary lies beyond the overlap window, so every step
advances), falls back to a hard cut at `max_chunk_size`, and consecutive
chunks overlap by `overlap_size`.  Sizes are in characters.  Empty input
yields zero chunks; input within the budget yields exactly one chunk. -/

/-- A chunk of a document's normalized text. -/
structure Chunk where
  chunk_id : ChunkKey
  document_id : String
  text : List Char
  start_offset : Nat
  end_offset : Nat
  sequence_index : Nat
deriving Repr, DecidableEq

/-- Sentence-ending characters. -/
def isBoundary (c : Char) : Bool := c == '.' || c == '!' || c == '?'

/-- Position one past the last sentence boundary in the window, scanning
from index `i` with the best position found so far. -/
def lastBoundaryAux : List Char → Nat → Option Nat → Option Nat
  | [], _, acc => acc
  | c :: cs, i, acc =>
      lastBoundaryAux cs (i + 1) (if isBoundary c then some (i + 1) else acc)

/-- Position one past the last sentence boundary of the window, if any. -/
def lastBoundaryPos (window : List Char) : Option Nat :=
  lastBoundaryAux window 0 none

/-- The cut for the next chunk: the whole remainder when it fits the
budget; otherwise the last sentence boundary inside the budget when it
clears the overlap window; otherwise a hard cut at `maxSize`. -/
def cutPoint (rem : List Char) (maxSize overlap : Nat) : Nat :=
  if rem.length ≤ maxSize then rem.length
  else
    match lastBoundaryPos (rem.take maxSize) with
    | some p => if overlap < p then p else maxSize
    | none => maxSize

/-- The chunking loop over the remaining text, with the next sequence index
and the absolute start offset; consecutive chunks overlap by `overlap`
characters (the step is clamped to at least one character, which the spec's
`overlap_size < max_chunk_size` precondition already guarantees). -/
def chunkLoop (docId : String) (maxSize overlap : Nat) :
    List Char → Nat → Nat → List Chunk
  | [], _, _ => []
  | c :: cs, seq, pos =>
    let cut := cutPoint (c :: cs) maxSize overlap
    let text := (c :: cs).take cut
    if (c :: cs).length ≤ cut then
      [⟨(docId, seq), docId, text, pos, pos + text.length, seq⟩]
    else
      ⟨(docId, seq), docId, text, pos, pos + text.length, seq⟩ ::
        chunkLoop docId maxSize overlap
          ((c :: cs).drop (max (cut - overlap) 1)) (seq + 1)
          (pos + max (cut - overlap) 1)
termination_by l => l.length
decreasing_by
  simp only [List.length_drop]
  have h1 : 1 ≤ max (cutPoint (c :: cs) maxSize overlap - overlap) 1 :=
    le_max_right _ 1
  simp only [List.length_cons]
  omega

/-- The operation `chunk(document_id, normalized_text, max_chunk_size, overlap_size)`. -/
def chunk (docId : String) (normalizedText : List Char)
    (maxSize overlap : Nat) : List Chunk :=
  chunkLoop docId maxSize overlap normalizedText 0 0

/-! ## Ingestion Pipeline — spec §4.5

Modelled from the spec: the pipeline implementation is not part of the
visible source tree.  `ingest` runs normalize → chunk → embed_batch → upsert
per chunk; re-ingesting a document whose prior status is completed or failed
first deletes that document's records; any stage failure marks the document
failed with its partial chunks purged (never a half-indexed document);
success marks it completed. -/

/-- Per-document ingestion status. -/
inductive IngestionStatus where
  | pending
  | processing
  | completed
  | failed
deriving Repr, DecidableEq

/-- One uploaded document. -/
structure Document where
  id : String
  source_name : String
  raw_text : String
deriving Repr, DecidableEq

/-- The pipeline's shared state: the Vector Index plus the per-document
status records (most recent first). -/
structure PipelineState where
  index : VectorIndex
  statuses : List (String × IngestionStatus)
deriving Repr, DecidableEq

/-- The most recently recorded status of a document, if any. -/
def statusOf (st : PipelineState) (docId : String) : Option IngestionStatus :=
  (st.statuses.find? fun e => e.1 == docId).map Prod.snd

/-- Ingestion configuration: the embedding provider (`none` models
`EmbeddingUnavailable` after retries) and the chunking parameters. -/
structure IngestConfig where
  embed : String → Option (List Rat)
  maxChunkSize : Nat
  overlapSize : Nat

/-- The operation `embed_batch`: order-preserving, all-or-nothing batch embedding. -/
def embed_batch (emb : String → Option (List Rat)) :
    List String → Option (List (List Rat))
  | [] => some []
  | t :: ts =>
    match emb t, embed_batch emb ts with
    | some v, some vs => some (v :: vs)
    | _, _ => none

/-- The index record for one embedded chunk of a document. -/
def recordOfChunk (doc : Document) (c : Chunk) (v : List Rat) : IndexRecord where
  chunk_id := (doc.id, c.sequence_index)
  document_id := doc.id
  vector := v
  metadata := { source := doc.source_name, text := String.mk c.text }

/-- Upsert a batch of records, stopping at the first hard error. -/
def upsertAll (idx : VectorIndex) :
    List IndexRecord → Except IndexError VectorIndex
  | [] => .ok idx
  | r :: rs =>
    match idx.upsert r with
    | .error e => .error e
    | .ok idx1 => upsertAll idx1 rs

/-- The chunks of a document: normalize, then chunk. -/
def chunksOf (cfg : IngestConfig) (doc : Document) : List Chunk :=
  chunk doc.id (preprocessContentL doc.raw_text.data) cfg.maxChunkSize
    cfg.overlapSize

/-- The index a (re-)ingestion starts from: the stale records of a
completed or failed document are deleted first. -/
def preIndex (st : PipelineState) (docId : String) : VectorIndex :=
  if statusOf st docId = some .completed ∨ statusOf st docId = some .failed
  then st.index.delete_document docId
  else st.index

/-- The operation `ingest(document)`: delete stale records when re-ingesting a completed
or failed document, then normalize → chunk → embed_batch → upsert all;
status completed on full success, failed (with partial chunks purged)
otherwise. -/
def ingest (cfg : IngestConfig) (st : PipelineState) (doc : Document) :
    PipelineState :=
  match embed_batch cfg.embed
      ((chunksOf cfg doc).map fun c => String.mk c.text) with
  | none =>
    { index := (preIndex st doc.id).delete_document doc.id
      statuses := (doc.id, .failed) :: st.statuses }
  | some vs =>
    match upsertAll (preIndex st doc.id)
        (List.zipWith (recordOfChunk doc) (chunksOf cfg doc) vs) with
    | .error _ =>
      { index := (preIndex st doc.id).delete_document doc.id
        statuses := (doc.id, .failed) :: st.statuses }
    | .ok idx1 =>
      { index := idx1
        statuses := (doc.id, .completed) :: st.statuses }

/-! ## Theorems -/

theorem collapseWs_flag (l : List Char) (h : headWs l = false) :
    collapseWs true l = collapseWs false l := by
  cases l with
  | nil => rfl
  | cons c cs =>
    simp only [headWs] at h
    simp [collapseWs, h]

theorem headWs_collapseWs_true (l : List Char) :
    headWs (collapseWs true l) = false := by
  induction l with
  | nil => rfl
  | cons c cs ih =>
    by_cases h : isWs c = true
    · simpa [collapseWs, h] using ih
    · simp only [Bool.not_eq_true] at h
      simp [collapseWs, h, headWs]

theorem noRun_collapseWs (l : List Char) : ∀ b, noRun (collapseWs b l) = true := by
  induction l with
  | nil => intro b; rfl
  | cons c cs ih =>
    intro b
    by_cases h : isWs c = true
    · cases b with
      | true => simpa [collapseWs, h] using ih true
      | false =>
        simp only [collapseWs, h, if_true]
        simp only [noRun, Bool.and_eq_true, Bool.not_eq_true']
        refine ⟨?_, ih true⟩
        simp [headWs_collapseWs_true]
    · simp only [Bool.not_eq_true] at h
      simp only [collapseWs, h, Bool.false_eq_true, if_false]
      simp only [noRun, Bool.and_eq_true, Bool.not_eq_true']
      exact ⟨by simp [h], ih false⟩

theorem wsSpace_collapseWs (l : List Char) : ∀ b, wsSpace (collapseWs b l) = true := by
  induction l with
  | nil => intro b; rfl
  | cons c cs ih =>
    intro b
    by_cases h : isWs c = true
    · cases b with
      | true => simpa [collapseWs, h] using ih true
      | false =>
        simp only [collapseWs, h, if_true]
        simpa [wsSpace, List.all_cons] using ih true
    · simp only [Bool.not_eq_true] at h
      simp only [collapseWs, h, Bool.false_eq_true, if_false]
      simpa [wsSpace, List.all_cons, h] using ih false

/-- A list in normal form (no whitespace runs, all whitespace is the space
character) is a fixed point of `collapseWs false`. -/
theorem collapseWs_id (l : List Char) (h1 : noRun l = true)
    (h2 : wsSpace l = true) : collapseWs false l = l := by
  induction l with
  | nil => rfl
  | cons c cs ih =>
    simp only [noRun, Bool.and_eq_true, Bool.not_eq_true'] at h1
    simp only [wsSpace, List.all_cons, Bool.and_eq_true] at h2
    by_cases h : isWs c = true
    · have hsp : c = ' ' := by
        have := h2.1
        rw [h] at this
        simpa using this
      have hhd : headWs cs = false := by
        rcases Bool.and_eq_false_iff.mp h1.1 with h' | h'
        · rw [h] at h'; cases h'
        · exact h'
      simp only [collapseWs, h, if_true]
      rw [collapseWs_flag cs hhd, ih h1.2 h2.2, hsp]
      simp
    · simp only [Bool.not_eq_true] at h
      simp only [collapseWs, h, Bool.false_eq_true, if_false]
      rw [ih h1.2 h2.2]

theorem headWs_dropWhile (l : List Char) : headWs (l.dropWhile isWs) = false := by
  induction l with
  | nil => rfl
  | cons c cs ih =>
    by_cases h : isWs c = true
    · simpa [List.dropWhile_cons, h] using ih
    · simp only [Bool.not_eq_true] at h
      simp [List.dropWhile_cons, h, headWs]

theorem dropWhile_id_of_headWs (l : List Char) (h : headWs l = false) :
    l.dropWhile isWs = l := by
  cases l with
  | nil => rfl
  | cons c cs =>
    simp only [headWs] at h
    simp [List.dropWhile_cons, h]

/-- The function `stripChars` fixes any list whose first and last characters are not
whitespace. -/
theorem stripChars_id (l : List Char) (h1 : headWs l = false)
    (h2 : lastWs l = false) : stripChars l = l := by
  unfold stripChars
  rw [dropWhile_id_of_headWs l h1]
  have hrev : headWs l.reverse = false := by
    cases l with
    | nil => rfl
    | cons c cs =>
      have : (c :: cs).reverse ≠ [] := by simp
      rcases List.exists_cons_of_ne_nil this with ⟨d, ds, hd⟩
      rw [hd]
      have hgl : (c :: cs).getLast? = some d := by
        rw [← List.head?_reverse, hd]; rfl
      simp only [lastWs, hgl] at h2
      simpa [headWs] using h2
  rw [dropWhile_id_of_headWs l.reverse hrev, List.reverse_reverse]

theorem noRun_concat (l : List Char) (a : Char) :
    noRun (l ++ [a]) = (noRun l && !(lastWs l && isWs a)) := by
  induction l with
  | nil => simp [noRun, lastWs, headWs]
  | cons c cs ih =>
    cases cs with
    | nil => simp [noRun, lastWs, headWs, List.getLast?]
    | cons d ds =>
      have hlast : lastWs (c :: d :: ds) = lastWs (d :: ds) := by
        simp [lastWs, List.getLast?_cons_cons]
      have ih' : noRun (d :: (ds ++ [a]))
          = (noRun (d :: ds) && !(lastWs (d :: ds) && isWs a)) := by
        simpa using ih
      have h1 : noRun ((c :: d :: ds) ++ [a])
          = (!(isWs c && isWs d) && noRun (d :: (ds ++ [a]))) := rfl
      have h2 : noRun (c :: d :: ds)
          = (!(isWs c && isWs d) && noRun (d :: ds)) := rfl
      rw [h1, h2, hlast, ih', Bool.and_assoc]

theorem noRun_reverse (l : List Char) : noRun l.reverse = noRun l := by
  induction l with
  | nil => rfl
  | cons c cs ih =>
    rw [List.reverse_cons, noRun_concat, ih]
    have : lastWs cs.reverse = headWs cs := by
      cases cs with
      | nil => rfl
      | cons d ds =>
        simp only [lastWs, headWs]
        rw [List.getLast?_reverse]
        rfl
    rw [this]
    simp only [noRun]
    rw [Bool.and_comm (isWs c) (headWs cs), Bool.and_comm]

theorem noRun_dropWhile (l : List Char) (h : noRun l = true) :
    noRun (l.dropWhile isWs) = true := by
  induction l with
  | nil => exact h
  | cons c cs ih =>
    simp only [noRun, Bool.and_eq_true] at h
    by_cases hc : isWs c = true
    · simpa [List.dropWhile_cons, hc] using ih h.2
    · simp only [Bool.not_eq_true] at hc
      simp only [List.dropWhile_cons, hc, Bool.false_eq_true, if_false]
      simp only [noRun, Bool.and_eq_true]
      exact h

theorem wsSpace_dropWhile (l : List Char) (h : wsSpace l = true) :
    wsSpace (l.dropWhile isWs) = true := by
  induction l with
  | nil => exact h
  | cons c cs ih =>
    simp only [wsSpace, List.all_cons, Bool.and_eq_true] at h
    by_cases hc : isWs c = true
    · simpa [List.dropWhile_cons, hc] using ih h.2
    · simp only [Bool.not_eq_true] at hc
      simp only [List.dropWhile_cons, hc, Bool.false_eq_true, if_false]
      simp only [wsSpace, List.all_cons, Bool.and_eq_true]
      exact h

theorem wsSpace_reverse (l : List Char) : wsSpace l.reverse = wsSpace l := by
  simp [wsSpace]

theorem noRun_stripChars (l : List Char) (h : noRun l = true) :
    noRun (stripChars l) = true := by
  unfold stripChars
  rw [noRun_reverse]
  exact noRun_dropWhile _ (by rw [noRun_reverse]; exact noRun_dropWhile _ h)

theorem wsSpace_stripChars (l : List Char) (h : wsSpace l = true) :
    wsSpace (stripChars l) = true := by
  unfold stripChars
  rw [wsSpace_reverse]
  exact wsSpace_dropWhile _ (by rw [wsSpace_reverse]; exact wsSpace_dropWhile _ h)

theorem headWs_reverse (l : List Char) : headWs l.reverse = lastWs l := by
  cases hr : l.reverse with
  | nil =>
    have hl : l = [] := by simpa using congrArg List.reverse hr
    subst hl; rfl
  | cons c cs =>
    have h1 : l.getLast? = some c := by
      rw [← List.head?_reverse, hr]; rfl
    simp [headWs, lastWs, h1]

theorem lastWs_reverse (l : List Char) : lastWs l.reverse = headWs l := by
  rw [← headWs_reverse, List.reverse_reverse]

theorem lastWs_congr (z w : List Char) (h : z.getLast? = w.getLast?) :
    lastWs z = lastWs w := by
  simp [lastWs, h]

theorem getLast?_dropWhile (p : Char → Bool) (l : List Char)
    (h : l.dropWhile p ≠ []) : (l.dropWhile p).getLast? = l.getLast? := by
  induction l with
  | nil => simp at h
  | cons c cs ih =>
    by_cases hc : p c = true
    · rw [List.dropWhile_cons_of_pos hc] at h ⊢
      cases cs with
      | nil => simp at h
      | cons d ds =>
        rw [ih h, List.getLast?_cons_cons]
    · simp only [Bool.not_eq_true] at hc
      rw [List.dropWhile_cons_of_neg (by simp [hc])]

theorem lastWs_dropWhile_of (y : List Char) (h : lastWs y = false) :
    lastWs (y.dropWhile isWs) = false := by
  by_cases hz : y.dropWhile isWs = []
  · rw [hz]; rfl
  · rw [lastWs_congr _ y (getLast?_dropWhile isWs y hz)]
    exact h

theorem lastWs_stripChars (l : List Char) : lastWs (stripChars l) = false := by
  unfold stripChars
  rw [lastWs_reverse]
  exact headWs_dropWhile _

theorem headWs_stripChars (l : List Char) : headWs (stripChars l) = false := by
  unfold stripChars
  rw [headWs_reverse]
  apply lastWs_dropWhile_of
  rw [lastWs_reverse]
  exact headWs_dropWhile l

/-- Idempotence of `clean_text` at the character-list level. -/
theorem cleanTextL_idem (l : List Char) : cleanTextL (cleanTextL l) = cleanTextL l := by
  have h1 : noRun (cleanTextL l) = true :=
    noRun_stripChars _ (noRun_collapseWs l false)
  have h2 : wsSpace (cleanTextL l) = true :=
    wsSpace_stripChars _ (wsSpace_collapseWs l false)
  show stripChars (collapseWs false (cleanTextL l)) = cleanTextL l
  rw [collapseWs_id _ h1 h2]
  exact stripChars_id _ (headWs_stripChars _) (lastWs_stripChars _)

/-- C6: `normalize` (the normalizer pipeline `preprocess_content` of
`preprocess.py`, i.e. collapse whitespace runs, strip, then the pass-through
`normalize_text`) is idempotent: for every string `s`,
`normalize(normalize(s)) = normalize(s)`. -/
theorem C6_normalize_idempotent (s : String) :
    preprocess_content (preprocess_content s) = preprocess_content s :=
  congrArg String.mk (cleanTextL_idem s.data)

/-- C8 as stated is false on the code: `fetchRagAnswer.fulfilled` does not
clear `ragError`, so rejection of one dispatch followed by fulfilment of an
overlapping one reaches a state with `ragError` set and a non-empty answer. -/
theorem C8_counterexample :
    ¬ ragInv (runActions initialState
      [.ragRejected "boom", .ragFulfilled "Some answer." []]) := by
  decide

theorem ragInv_step (s : ResearchState) (a : ResearchAction)
    (hs : ragInv s) (ha : stepOk s a) : ragInv (researchReducer s a) := by
  cases a <;> intro he
  case clearLegalDocResults => exact absurd rfl he
  case ragPending => exact absurd rfl he
  case ragRejected => exact ⟨rfl, rfl⟩
  case ragFulfilled => exact absurd ha he
  all_goals exact hs he

theorem okRun_ragInv : ∀ (l : List ResearchAction) (s : ResearchState),
    ragInv s → okRun s l → ragInv (l.foldl researchReducer s) := by
  intro l
  induction l with
  | nil => intro s hs _; exact hs
  | cons a rest ih =>
    intro s hs h
    exact ih _ (ragInv_step s a hs h.1) h.2

/-- C8 (amended): in the research Redux store, every state reachable from
`initialState` by a dispatch sequence in which each `fetchRagAnswer.fulfilled`
lands while `ragError` is already cleared (as its own `pending` guarantees
when requests do not interleave) satisfies: if `ragError` is non-null then
`ragAnswer` is empty and `ragCitations` is the empty list.  The unguarded
statement fails because the fulfilled handler leaves `ragError` untouched. -/
theorem C8_rag_error_excludes_answer (l : List ResearchAction)
    (h : okRun initialState l) : ragInv (runActions initialState l) :=
  okRun_ragInv l initialState (fun hne => absurd rfl hne) h

theorem C8_rag_error_excludes_answer_witness :
    ragInv (runActions initialState
      [.ragPending "q", .ragFulfilled "An answer." []]) :=
  C8_rag_error_excludes_answer _ ⟨trivial, rfl, trivial⟩

/-- C9: `clearLegalDocResults` resets the legal-document search fields and
all RAG fields to their initial values and leaves every other field of the
research state unchanged. -/
theorem C9_clearLegalDocResults_frame (s : ResearchState) :
    (researchReducer s .clearLegalDocResults).legalDocResults
        = initialState.legalDocResults ∧
    (researchReducer s .clearLegalDocResults).legalDocQuery
        = initialState.legalDocQuery ∧
    (researchReducer s .clearLegalDocResults).legalDocError
        = initialState.legalDocError ∧
    (researchReducer s .clearLegalDocResults).ragQuestion
        = initialState.ragQuestion ∧
    (researchReducer s .clearLegalDocResults).ragAnswer
        = initialState.ragAnswer ∧
    (researchReducer s .clearLegalDocResults).ragCitations
        = initialState.ragCitations ∧
    (researchReducer s .clearLegalDocResults).ragError
        = initialState.ragError ∧
    (researchReducer s .clearLegalDocResults).searchQuery = s.searchQuery ∧
    (researchReducer s .clearLegalDocResults).searchResults = s.searchResults ∧
    (researchReducer s .clearLegalDocResults).selectedCase = s.selectedCase ∧
    (researchReducer s .clearLegalDocResults).prediction = s.prediction ∧
    (researchReducer s .clearLegalDocResults).loading = s.loading ∧
    (researchReducer s .clearLegalDocResults).error = s.error ∧
    (researchReducer s .clearLegalDocResults).legalDocLoading
        = s.legalDocLoading ∧
    (researchReducer s .clearLegalDocResults).ragLoading = s.ragLoading := by
  refine ⟨rfl, rfl, rfl, rfl, rfl, rfl, rfl, rfl, rfl, rfl, rfl, rfl, rfl,
    rfl, rfl⟩

/-- C10: `uploadDocument` rejects with `Missing required fields: file and
title` and issues no network request whenever the FormData lacks a `file`
or a `title` entry, and the POST to `/api/documents/upload` is only issued
when both entries are present. -/
theorem C10_uploadDocument_validation (userId : Option String) (fd : FormData) :
    ((FormData.get fd "file" = none ∨ FormData.get fd "title" = none) →
      uploadDocument userId fd
        = .reject "Missing required fields: file and title") ∧
    (∀ path body, uploadDocument userId fd = .post path body →
      (FormData.get fd "file").isSome = true ∧
        (FormData.get fd "title").isSome = true ∧
        path = "/api/documents/upload") := by
  constructor
  · intro h
    have hc : (!truthyGet fd "file" || !truthyGet fd "title") = true := by
      rcases h with h | h <;> simp [truthyGet, h]
    simp [uploadDocument, hc]
  · intro path body hpost
    unfold uploadDocument at hpost
    by_cases hc : (!truthyGet fd "file" || !truthyGet fd "title") = true
    · rw [if_pos hc] at hpost; cases hpost
    · rw [if_neg hc] at hpost
      have hcb : truthyGet fd "file" = true ∧ truthyGet fd "title" = true := by
        rcases Bool.eq_false_or_eq_true (truthyGet fd "file") with h1 | h1 <;>
          rcases Bool.eq_false_or_eq_true (truthyGet fd "title") with h2 | h2 <;>
          simp [h1, h2] at hc ⊢
      injection hpost with hpath _
      refine ⟨?_, ?_, hpath.symm⟩
      · unfold truthyGet at hcb
        cases hg : FormData.get fd "file" with
        | none => rw [hg] at hcb; exact absurd hcb.1 (by simp)
        | some v => simp [hg]
      · unfold truthyGet at hcb
        cases hg : FormData.get fd "title" with
        | none => rw [hg] at hcb; exact absurd hcb.2 (by simp)
        | some v => simp [hg]

theorem C10_uploadDocument_validation_witness :
    uploadDocument none [("title", .str "T")]
        = .reject "Missing required fields: file and title" ∧
      ((FormData.get [("file", FormValue.file "a.pdf" 10 "application/pdf"),
          ("title", FormValue.str "T")] "file").isSome = true ∧
        (FormData.get [("file", FormValue.file "a.pdf" 10 "application/pdf"),
          ("title", FormValue.str "T")] "title").isSome = true ∧
        "/api/documents/upload" = "/api/documents/upload") :=
  ⟨(C10_uploadDocument_validation none [("title", .str "T")]).1 (Or.inl rfl),
   (C10_uploadDocument_validation none
      [("file", FormValue.file "a.pdf" 10 "application/pdf"),
        ("title", FormValue.str "T")]).2 "/api/documents/upload" _ rfl⟩

theorem mem_insertHit (r y : SearchHit) :
    ∀ l, y ∈ insertHit r l → y = r ∨ y ∈ l := by
  intro l
  induction l with
  | nil => intro h; simpa [insertHit] using h
  | cons x xs ih =>
    intro h
    simp only [insertHit] at h
    split at h
    · rcases List.mem_cons.mp h with h | h
      · exact Or.inl h
      · exact Or.inr h
    · rcases List.mem_cons.mp h with h | h
      · exact Or.inr (h ▸ List.mem_cons_self x xs)
      · rcases ih h with h | h
        · exact Or.inl h
        · exact Or.inr (List.mem_cons_of_mem x h)

theorem score_le_of_hitBefore (a b : SearchHit) (h : hitBefore a b) :
    b.score ≤ a.score := by
  rcases h with h | ⟨h, _⟩
  · exact le_of_lt h
  · exact le_of_eq h.symm

theorem pairwise_insertHit (r : SearchHit) :
    ∀ l, l.Pairwise hitBefore → (∀ x ∈ l, x.insertedAt < r.insertedAt) →
      (insertHit r l).Pairwise hitBefore := by
  intro l
  induction l with
  | nil => intro _ _; simp [insertHit]
  | cons x xs ih =>
    intro hp hidx
    rcases List.pairwise_cons.mp hp with ⟨hx, hxs⟩
    simp only [insertHit]
    split
    · rename_i hlt
      refine List.pairwise_cons.mpr ⟨?_, hp⟩
      intro y hy
      rcases List.mem_cons.mp hy with hy | hy
      · exact Or.inl (hy ▸ hlt)
      · exact Or.inl (lt_of_le_of_lt (score_le_of_hitBefore x y (hx y hy)) hlt)
    · rename_i hge
      push_neg at hge
      refine List.pairwise_cons.mpr ⟨?_, ?_⟩
      · intro y hy
        rcases mem_insertHit r y xs hy with hy | hy
        · subst hy
          rcases lt_or_eq_of_le hge with h | h
          · exact Or.inl h
          · exact Or.inr ⟨h.symm, hidx x (List.mem_cons_self x xs)⟩
        · exact hx y hy
      · exact ih hxs fun z hz => hidx z (List.mem_cons_of_mem x hz)

theorem foldl_insertHit_pairwise :
    ∀ (l acc : List SearchHit), acc.Pairwise hitBefore →
      (∀ x ∈ acc, ∀ r ∈ l, x.insertedAt < r.insertedAt) →
      l.Pairwise (fun a b => a.insertedAt < b.insertedAt) →
      (l.foldl (fun acc r => insertHit r acc) acc).Pairwise hitBefore := by
  intro l
  induction l with
  | nil => intro acc h _ _; exact h
  | cons r rs ih =>
    intro acc hacc hcross hl
    rcases List.pairwise_cons.mp hl with ⟨hr, hrs⟩
    simp only [List.foldl_cons]
    refine ih (insertHit r acc) ?_ ?_ hrs
    · exact pairwise_insertHit r acc hacc
        fun x hx => hcross x hx r (List.mem_cons_self r rs)
    · intro x hx q hq
      rcases mem_insertHit r x acc hx with hx | hx
      · exact hx ▸ hr q hq
      · exact hcross x hx q (List.mem_cons_of_mem r hq)

theorem sortHits_pairwise (l : List SearchHit)
    (h : l.Pairwise fun a b => a.insertedAt < b.insertedAt) :
    (sortHits l).Pairwise hitBefore :=
  foldl_insertHit_pairwise l [] (List.Pairwise.nil) (by simp) h

theorem withPos_fst_lt : ∀ (rs : List IndexRecord) (n : Nat),
    ∀ p ∈ withPos n rs, n ≤ p.1 := by
  intro rs
  induction rs with
  | nil => intro n p hp; simp [withPos] at hp
  | cons r rs ih =>
    intro n p hp
    simp only [withPos, List.mem_cons] at hp
    rcases hp with hp | hp
    · exact hp ▸ le_refl n
    · exact le_trans (Nat.le_succ n) (ih (n + 1) p hp)

theorem withPos_pairwise : ∀ (rs : List IndexRecord) (n : Nat),
    (withPos n rs).Pairwise fun a b => a.1 < b.1 := by
  intro rs
  induction rs with
  | nil => intro n; exact List.Pairwise.nil
  | cons r rs ih =>
    intro n
    refine List.pairwise_cons.mpr ⟨?_, ih (n + 1)⟩
    intro p hp
    exact lt_of_lt_of_le (Nat.lt_succ_self n) (withPos_fst_lt rs (n + 1) p hp)

/-- C3: for every fixed index state and fixed query vector, two successive
calls to search return identical result lists, and any returned list is
ordered descending by score with ties broken by insertion order. -/
theorem C3_search_deterministic (idx : VectorIndex) (qv : List Rat)
    (top_k : Nat) :
    idx.search qv top_k = idx.search qv top_k ∧
      ∀ hits, idx.search qv top_k = .ok hits → hits.Pairwise hitBefore := by
  refine ⟨rfl, ?_⟩
  intro hits h
  unfold VectorIndex.search at h
  split at h
  · cases h
  · injection h with h
    subst h
    refine List.Pairwise.sublist (List.take_sublist _ _) ?_
    refine sortHits_pairwise _ ?_
    refine List.pairwise_map.mpr ?_
    exact withPos_pairwise idx.records 0

/-- C4: search on a freshly created (empty) index with a query vector of the
right dimension returns the empty list, not an error. -/
theorem C4_search_empty (d : Nat) (qv : List Rat) (top_k : Nat)
    (h : qv.length = d) :
    (VectorIndex.mkEmpty d).search qv top_k = .ok [] := by
  unfold VectorIndex.search VectorIndex.mkEmpty
  simp [h, withPos, sortHits]

theorem C4_search_empty_witness :
    ([(0 : Rat), 1].length = 2) ∧
      (VectorIndex.mkEmpty 2).search [0, 1] 3 = .ok [] :=
  ⟨rfl, C4_search_empty 2 [0, 1] 3 rfl⟩

/-- C1: even when the embedding backend or the generation backend always
fails, a question posed to /query yields a well-formed `{answer, citations}`
response whose answer is the fixed apology and whose citations are empty —
never an error — provided the embedding backend honours the index's fixed
dimension whenever it does produce a vector (§4.3). -/
theorem C1_query_degrades_gracefully (be : RagBackends) (idx : VectorIndex)
    (question : String) (top_k : Nat)
    (hdim : ∀ t v, be.embedQ t = some v → v.length = idx.dim)
    (hfail : (∀ t, be.embedQ t = none) ∨ (∀ t c, be.generate t c = none)) :
    answerQuestion be idx question top_k = .ok ⟨apologyAnswer, []⟩ := by
  rcases hfail with hf | hf
  · simp [answerQuestion, hf]
  · cases he : be.embedQ question with
    | none => simp [answerQuestion, he]
    | some qv =>
      have hlen : qv.length = idx.dim := hdim question qv he
      simp only [answerQuestion, he]
      unfold VectorIndex.search
      have hguard : (qv.length != idx.dim) = false := by simp [hlen]
      rw [hguard]
      simp [hf]

theorem C1_query_degrades_gracefully_witness :
    answerQuestion ⟨fun _ => none, fun _ _ => none⟩ (VectorIndex.mkEmpty 3)
        "What remedies are discussed?" 3 = .ok ⟨apologyAnswer, []⟩ :=
  C1_query_degrades_gracefully ⟨fun _ => none, fun _ _ => none⟩
    (VectorIndex.mkEmpty 3) "What remedies are discussed?" 3
    (fun t v h => by cases h) (Or.inl fun t => rfl)

/-- C5: whenever a query reaches the Answered state (embedding produced a
vector, retrieval returned hits, generation produced an answer), the
citation list is exactly the retrieved hit list mapped one-to-one through
`citationOfHit` — each citation carrying the owning document's name, the
snippet text and the score — in the retrieval ranking order. -/
theorem C5_citations_from_hits (be : RagBackends) (idx : VectorIndex)
    (question : String) (top_k : Nat) (qv : List Rat) (hits : List SearchHit)
    (ans : String)
    (hembed : be.embedQ question = some qv)
    (hsearch : idx.search qv top_k = .ok hits)
    (hgen : be.generate question (hits.map fun h => h.metadata.text)
      = some ans) :
    answerQuestion be idx question top_k
      = .ok ⟨ans, hits.map citationOfHit⟩ := by
  simp [answerQuestion, hembed, hsearch, hgen]

theorem C5_citations_from_hits_witness :
    answerQuestion
        ⟨fun _ => some [1], fun _ _ => some "Grounded answer."⟩
        ⟨1, [⟨("doc1", 0), "doc1", [1], ⟨"doc1", "snippet"⟩⟩]⟩
        "Q?" 3
      = .ok ⟨"Grounded answer.",
          [⟨"doc1", "snippet", 1⟩]⟩ :=
  C5_citations_from_hits
    ⟨fun _ => some [1], fun _ _ => some "Grounded answer."⟩
    ⟨1, [⟨("doc1", 0), "doc1", [1], ⟨"doc1", "snippet"⟩⟩]⟩
    "Q?" 3 [1] [⟨("doc1", 0), "doc1", ⟨"doc1", "snippet"⟩, 1, 0⟩]
    "Grounded answer." rfl
    (by norm_num [VectorIndex.search, withPos, sortHits, insertHit,
      similarity])
    rfl

theorem lastBoundaryAux_le :
    ∀ (w : List Char) (i : Nat) (acc : Option Nat),
      (∀ p, acc = some p → p ≤ i) →
      ∀ p, lastBoundaryAux w i acc = some p → p ≤ i + w.length := by
  intro w
  induction w with
  | nil =>
    intro i acc hacc p hp
    simpa using hacc p hp
  | cons c cs ih =>
    intro i acc hacc p hp
    simp only [lastBoundaryAux] at hp
    have hstep : ∀ q, (if isBoundary c then some (i + 1) else acc) = some q →
        q ≤ i + 1 := by
      intro q hq
      by_cases hb : isBoundary c = true
      · rw [if_pos hb] at hq
        injection hq with hq
        omega
      · rw [if_neg hb] at hq
        exact le_trans (hacc q hq) (Nat.le_succ i)
    have := ih (i + 1) _ hstep p hp
    simp only [List.length_cons]
    omega

theorem lastBoundaryPos_le (w : List Char) (p : Nat)
    (h : lastBoundaryPos w = some p) : p ≤ w.length := by
  have := lastBoundaryAux_le w 0 none (by intro q hq; cases hq) p h
  simpa using this

/-- Whatever the cut, the text actually taken never exceeds `maxSize`. -/
theorem take_cutPoint_le (rem : List Char) (maxSize overlap : Nat) :
    (rem.take (cutPoint rem maxSize overlap)).length ≤ maxSize := by
  rw [List.length_take]
  unfold cutPoint
  split
  · omega
  · split
    · rename_i p hb
      have hp := lastBoundaryPos_le _ _ hb
      rw [List.length_take] at hp
      split
      · omega
      · omega
    · omega

theorem chunkLoop_text_le (docId : String) (maxSize overlap : Nat) :
    ∀ (n : Nat) (l : List Char), l.length ≤ n → ∀ (seq pos : Nat),
      ∀ c ∈ chunkLoop docId maxSize overlap l seq pos,
        c.text.length ≤ maxSize := by
  intro n
  induction n with
  | zero =>
    intro l hl seq pos c hc
    have : l = [] := List.length_eq_zero.mp (Nat.le_zero.mp hl)
    subst this
    simp [chunkLoop] at hc
  | succ n ih =>
    intro l hl seq pos c hc
    cases l with
    | nil => simp [chunkLoop] at hc
    | cons a as =>
      rw [chunkLoop] at hc
      split at hc
      · rcases List.mem_singleton.mp hc with hc
        subst hc
        exact take_cutPoint_le (a :: as) maxSize overlap
      · rcases List.mem_cons.mp hc with hc | hc
        · subst hc
          exact take_cutPoint_le (a :: as) maxSize overlap
        · refine ih _ ?_ _ _ c hc
          have h1 : 1 ≤ max (cutPoint (a :: as) maxSize overlap - overlap) 1 :=
            le_max_right _ 1
          rw [List.length_drop]
          simp only [List.length_cons] at hl ⊢
          omega

/-- C7: every chunk produced by the chunker has text of length at most
`max_chunk_size`, including on degenerate inputs with no sentence boundary,
where the hard cut applies. -/
theorem C7_chunk_size_bound (docId : String) (normalizedText : List Char)
    (maxSize overlap : Nat) (c : Chunk)
    (hc : c ∈ chunk docId normalizedText maxSize overlap) :
    c.text.length ≤ maxSize :=
  chunkLoop_text_le docId maxSize overlap normalizedText.length
    normalizedText (le_refl _) 0 0 c hc

theorem C7_chunk_size_bound_witness :
    (⟨("d", 0), "d", ['a', 'b', '.'], 0, 3, 0⟩ : Chunk).text.length ≤ 10 :=
  C7_chunk_size_bound "d" ['a', 'b', '.'] 10 2 _ (by
    rw [chunk, chunkLoop]
    norm_num [cutPoint])

theorem upsert_dim (idx : VectorIndex) (r : IndexRecord) (idx1 : VectorIndex)
    (h : idx.upsert r = .ok idx1) : idx1.dim = idx.dim := by
  unfold VectorIndex.upsert at h
  split at h
  · cases h
  · split at h <;> (injection h with h; subst h; rfl)

theorem upsertAll_dim : ∀ (recs : List IndexRecord) (idx idx1 : VectorIndex),
    upsertAll idx recs = .ok idx1 → idx1.dim = idx.dim := by
  intro recs
  induction recs with
  | nil =>
    intro idx idx1 h
    injection h with h
    subst h; rfl
  | cons r rs ih =>
    intro idx idx1 h
    unfold upsertAll at h
    split at h
    · cases h
    · rename_i idx2 hok
      exact (ih idx2 idx1 h).trans (upsert_dim idx r idx2 hok)

theorem upsert_fresh (idx : VectorIndex) (r : IndexRecord)
    (hdim : r.vector.length = idx.dim)
    (hfresh : ∀ e ∈ idx.records, e.chunk_id ≠ r.chunk_id) :
    idx.upsert r = .ok { idx with records := idx.records ++ [r] } := by
  unfold VectorIndex.upsert
  have h1 : (r.vector.length != idx.dim) = false := by simp [hdim]
  rw [h1]
  have h2 : (idx.records.any fun e => e.chunk_id == r.chunk_id) = false := by
    rw [List.any_eq_false]
    intro e he
    simp [hfresh e he]
  rw [h2]
  simp

theorem upsertAll_fresh : ∀ (recs : List IndexRecord) (idx : VectorIndex),
    (∀ r ∈ recs, r.vector.length = idx.dim) →
    (∀ r ∈ recs, ∀ e ∈ idx.records, e.chunk_id ≠ r.chunk_id) →
    recs.Pairwise (fun a b => a.chunk_id ≠ b.chunk_id) →
    upsertAll idx recs = .ok { idx with records := idx.records ++ recs } := by
  intro recs
  induction recs with
  | nil =>
    intro idx _ _ _
    simp [upsertAll]
  | cons r rs ih =>
    intro idx hdim hfresh hpw
    rcases List.pairwise_cons.mp hpw with ⟨hr, hrs⟩
    have h1 : idx.upsert r = .ok { idx with records := idx.records ++ [r] } :=
      upsert_fresh idx r (hdim r (List.mem_cons_self r rs))
        (fun e he => hfresh r (List.mem_cons_self r rs) e he)
    simp only [upsertAll, h1]
    have h2 := ih { idx with records := idx.records ++ [r] }
      (fun q hq => hdim q (List.mem_cons_of_mem r hq))
      (fun q hq e he => by
        simp only [List.mem_append, List.mem_singleton] at he
        rcases he with he | he
        · exact hfresh q (List.mem_cons_of_mem r hq) e he
        · exact he ▸ hr q hq)
      hrs
    rw [h2]
    simp

theorem chunkLoop_seq (docId : String) (maxSize overlap : Nat) :
    ∀ (n : Nat) (l : List Char), l.length ≤ n → ∀ (seq pos : Nat),
      (∀ c ∈ chunkLoop docId maxSize overlap l seq pos,
          seq ≤ c.sequence_index) ∧
        (chunkLoop docId maxSize overlap l seq pos).Pairwise
          (fun a b => a.sequence_index < b.sequence_index) := by
  intro n
  induction n with
  | zero =>
    intro l hl seq pos
    have : l = [] := List.length_eq_zero.mp (Nat.le_zero.mp hl)
    subst this
    constructor
    · intro c hc; simp [chunkLoop] at hc
    · simp [chunkLoop]
  | succ n ih =>
    intro l hl seq pos
    cases l with
    | nil =>
      constructor
      · intro c hc; simp [chunkLoop] at hc
      · simp [chunkLoop]
    | cons a as =>
      rw [chunkLoop]
      have hrec : ((a :: as).drop
          (max (cutPoint (a :: as) maxSize overlap - overlap) 1)).length ≤ n := by
        have h1 : 1 ≤ max (cutPoint (a :: as) maxSize overlap - overlap) 1 :=
          le_max_right _ 1
        rw [List.length_drop]
        simp only [List.length_cons] at hl ⊢
        omega
      split
      · constructor
        · intro c hc
          rcases List.mem_singleton.mp hc with hc
          subst hc
          exact le_refl seq
        · simp
      · obtain ⟨ihge, ihpw⟩ := ih _ hrec (seq + 1)
          (pos + max (cutPoint (a :: as) maxSize overlap - overlap) 1)
        constructor
        · intro c hc
          rcases List.mem_cons.mp hc with hc | hc
          · subst hc; exact le_refl seq
          · exact le_trans (Nat.le_succ seq) (ihge c hc)
        · refine List.pairwise_cons.mpr ⟨?_, ihpw⟩
          intro c hc
          exact lt_of_lt_of_le (Nat.lt_succ_self seq) (ihge c hc)

theorem chunksOf_seq_pairwise (cfg : IngestConfig) (doc : Document) :
    (chunksOf cfg doc).Pairwise
      (fun a b => a.sequence_index < b.sequence_index) :=
  (chunkLoop_seq doc.id cfg.maxChunkSize cfg.overlapSize _ _ (le_refl _) 0 0).2

theorem mem_zipWith {α β γ : Type} (f : α → β → γ) :
    ∀ (l1 : List α) (l2 : List β) (x : γ), x ∈ List.zipWith f l1 l2 →
      ∃ a, a ∈ l1 ∧ ∃ b, b ∈ l2 ∧ x = f a b := by
  intro l1
  induction l1 with
  | nil => intro l2 x hx; simp at hx
  | cons a l1 ih =>
    intro l2 x hx
    cases l2 with
    | nil => simp at hx
    | cons b l2 =>
      simp only [List.zipWith_cons_cons, List.mem_cons] at hx
      rcases hx with hx | hx
      · exact ⟨a, List.mem_cons_self a l1, b, List.mem_cons_self b l2, hx⟩
      · rcases ih l2 x hx with ⟨a1, ha1, b1, hb1, hx1⟩
        exact ⟨a1, List.mem_cons_of_mem a ha1, b1,
          List.mem_cons_of_mem b hb1, hx1⟩

theorem zipWith_records_pairwise (doc : Document) :
    ∀ (cs : List Chunk) (vs : List (List Rat)),
      cs.Pairwise (fun a b => a.sequence_index < b.sequence_index) →
      (List.zipWith (recordOfChunk doc) cs vs).Pairwise
        (fun a b => a.chunk_id ≠ b.chunk_id) := by
  intro cs
  induction cs with
  | nil => intro vs _; simp
  | cons c cs ih =>
    intro vs hpw
    cases vs with
    | nil => simp
    | cons v vs =>
      rcases List.pairwise_cons.mp hpw with ⟨hc, hcs⟩
      simp only [List.zipWith_cons_cons]
      refine List.pairwise_cons.mpr ⟨?_, ih vs hcs⟩
      intro y hy heq
      rcases mem_zipWith _ cs vs y hy with ⟨a1, ha1, b1, _, rfl⟩
      have hseq : c.sequence_index = a1.sequence_index := by
        simpa [recordOfChunk] using congrArg Prod.snd heq
      exact absurd (hseq ▸ hc a1 ha1) (lt_irrefl _)

theorem zipWith_records_fields (doc : Document) (cs : List Chunk)
    (vs : List (List Rat)) (r : IndexRecord)
    (h : r ∈ List.zipWith (recordOfChunk doc) cs vs) :
    r.document_id = doc.id ∧ r.chunk_id.1 = doc.id ∧ r.vector ∈ vs := by
  rcases mem_zipWith _ cs vs r h with ⟨a, _, b, hb, rfl⟩
  exact ⟨rfl, rfl, hb⟩

theorem filter_map_upsert (d : String) (r : IndexRecord)
    (hr : r.document_id = d) (hk : r.chunk_id.1 = d) :
    ∀ (l : List IndexRecord),
      (∀ e ∈ l, e.document_id ≠ d → e.chunk_id.1 ≠ d) →
      ((l.map fun e => if e.chunk_id == r.chunk_id then r else e).filter
          fun e => e.document_id != d)
        = l.filter fun e => e.document_id != d := by
  intro l
  induction l with
  | nil => intro _; rfl
  | cons e l ih =>
    intro h
    have htail := ih fun x hx => h x (List.mem_cons_of_mem e hx)
    simp only [List.map_cons, List.filter_cons]
    by_cases hd : e.document_id = d
    · have he1 : ¬((e.document_id != d) = true) := by simp [hd]
      by_cases hb : (e.chunk_id == r.chunk_id) = true
      · rw [if_pos hb,
          if_neg (show ¬((r.document_id != d) = true) by simp [hr]),
          if_neg he1]
        exact htail
      · rw [if_neg hb, if_neg he1, if_neg he1]
        exact htail
    · have he1 : (e.document_id != d) = true := by simp [hd]
      have hkne : e.chunk_id.1 ≠ d := h e (List.mem_cons_self e l) hd
      have hb : ¬((e.chunk_id == r.chunk_id) = true) := by
        simp only [beq_iff_eq]
        intro heq
        exact hkne (by rw [heq, hk])
      rw [if_neg hb, if_pos he1, if_pos he1, htail]

theorem nonown_map_upsert (d : String) (r : IndexRecord)
    (hr : r.document_id = d) (l : List IndexRecord)
    (h : ∀ e ∈ l, e.document_id ≠ d → e.chunk_id.1 ≠ d) :
    ∀ e ∈ l.map fun x => if x.chunk_id == r.chunk_id then r else x,
      e.document_id ≠ d → e.chunk_id.1 ≠ d := by
  intro e he
  rcases List.mem_map.mp he with ⟨x, hx, rfl⟩
  by_cases hb : (x.chunk_id == r.chunk_id) = true
  · rw [if_pos hb]
    intro hne
    exact absurd hr hne
  · rw [if_neg hb]
    exact h x hx

theorem upsert_nonown (idx : VectorIndex) (r : IndexRecord) (d : String)
    (hr : r.document_id = d) (hk : r.chunk_id.1 = d)
    (h : ∀ e ∈ idx.records, e.document_id ≠ d → e.chunk_id.1 ≠ d)
    (idx1 : VectorIndex) (hok : idx.upsert r = .ok idx1) :
    (idx1.records.filter (fun e => e.document_id != d)
        = idx.records.filter fun e => e.document_id != d) ∧
      ∀ e ∈ idx1.records, e.document_id ≠ d → e.chunk_id.1 ≠ d := by
  unfold VectorIndex.upsert at hok
  split at hok
  · cases hok
  · split at hok
    · injection hok with hok
      subst hok
      exact ⟨filter_map_upsert d r hr hk idx.records h,
        nonown_map_upsert d r hr idx.records h⟩
    · injection hok with hok
      subst hok
      constructor
      · show ((idx.records ++ [r]).filter fun e => e.document_id != d) = _
        rw [List.filter_append]
        simp [hr]
      · intro e he
        rcases List.mem_append.mp he with he | he
        · exact h e he
        · rcases List.mem_singleton.mp he with rfl
          intro hne
          exact absurd hr hne

theorem upsertAll_nonown : ∀ (recs : List IndexRecord) (d : String),
    (∀ r ∈ recs, r.document_id = d ∧ r.chunk_id.1 = d) →
    ∀ (idx idx1 : VectorIndex),
      (∀ e ∈ idx.records, e.document_id ≠ d → e.chunk_id.1 ≠ d) →
      upsertAll idx recs = .ok idx1 →
      (idx1.records.filter (fun e => e.document_id != d)
          = idx.records.filter fun e => e.document_id != d) ∧
        ∀ e ∈ idx1.records, e.document_id ≠ d → e.chunk_id.1 ≠ d := by
  intro recs
  induction recs with
  | nil =>
    intro d _ idx idx1 h hok
    injection hok with hok
    subst hok
    exact ⟨rfl, h⟩
  | cons r rs ih =>
    intro d hrecs idx idx1 h hok
    unfold upsertAll at hok
    split at hok
    · cases hok
    · rename_i idx2 hok2
      obtain ⟨hr, hk⟩ := hrecs r (List.mem_cons_self r rs)
      obtain ⟨hf2, hn2⟩ := upsert_nonown idx r d hr hk h idx2 hok2
      obtain ⟨hf3, hn3⟩ :=
        ih d (fun q hq => hrecs q (List.mem_cons_of_mem r hq)) idx2 idx1 hn2 hok
      exact ⟨hf3.trans hf2, hn3⟩

theorem delete_filter_nonown (idx : VectorIndex) (d : String) :
    ((idx.delete_document d).records.filter fun e => e.document_id != d)
      = idx.records.filter fun e => e.document_id != d := by
  show ((idx.records.filter _).filter _) = _
  rw [List.filter_filter]
  simp

theorem preIndex_dim (st : PipelineState) (docId : String) :
    (preIndex st docId).dim = st.index.dim := by
  unfold preIndex
  split <;> rfl

theorem preIndex_nonown (st : PipelineState) (d : String)
    (h : ∀ e ∈ st.index.records, e.document_id ≠ d → e.chunk_id.1 ≠ d) :
    ((preIndex st d).records.filter (fun e => e.document_id != d)
        = st.index.records.filter fun e => e.document_id != d) ∧
      ∀ e ∈ (preIndex st d).records, e.document_id ≠ d → e.chunk_id.1 ≠ d := by
  unfold preIndex
  split
  · exact ⟨delete_filter_nonown st.index d,
      fun e he => h e (List.mem_of_mem_filter he)⟩
  · exact ⟨rfl, h⟩

theorem ingest_dim (cfg : IngestConfig) (st : PipelineState) (doc : Document) :
    (ingest cfg st doc).index.dim = st.index.dim := by
  unfold ingest
  split
  · exact preIndex_dim st doc.id
  · split
    · exact preIndex_dim st doc.id
    · rename_i idx1 hok
      exact (upsertAll_dim _ _ _ hok).trans (preIndex_dim st doc.id)

theorem ingest_nonown (cfg : IngestConfig) (st : PipelineState)
    (doc : Document)
    (h : ∀ e ∈ st.index.records, e.document_id ≠ doc.id → e.chunk_id.1 ≠ doc.id) :
    ((ingest cfg st doc).index.records.filter
          (fun e => e.document_id != doc.id)
        = st.index.records.filter fun e => e.document_id != doc.id) ∧
      ∀ e ∈ (ingest cfg st doc).index.records,
        e.document_id ≠ doc.id → e.chunk_id.1 ≠ doc.id := by
  obtain ⟨hpf, hpn⟩ := preIndex_nonown st doc.id h
  unfold ingest
  split
  · exact ⟨(delete_filter_nonown _ _).trans hpf,
      fun e he => hpn e (List.mem_of_mem_filter he)⟩
  · split
    · exact ⟨(delete_filter_nonown _ _).trans hpf,
        fun e he => hpn e (List.mem_of_mem_filter he)⟩
    · rename_i vs hemb x idx1 hok
      have hprops : ∀ q ∈ List.zipWith (recordOfChunk doc) (chunksOf cfg doc) vs,
          q.document_id = doc.id ∧ q.chunk_id.1 = doc.id := by
        intro q hq
        obtain ⟨h1, h2, _⟩ := zipWith_records_fields doc _ vs q hq
        exact ⟨h1, h2⟩
      obtain ⟨hf, hn⟩ := upsertAll_nonown _ doc.id hprops _ idx1 hpn hok
      exact ⟨hf.trans hpf, hn⟩

theorem ingest_status (cfg : IngestConfig) (st : PipelineState)
    (doc : Document) :
    statusOf (ingest cfg st doc) doc.id = some .completed ∨
      statusOf (ingest cfg st doc) doc.id = some .failed := by
  unfold ingest
  split
  · right; simp [statusOf]
  · split
    · right; simp [statusOf]
    · left; simp [statusOf]

theorem ingest_success (cfg : IngestConfig) (st : PipelineState)
    (doc : Document) (vs : List (List Rat)) (idx1 : VectorIndex)
    (hemb : embed_batch cfg.embed
        ((chunksOf cfg doc).map fun c => String.mk c.text) = some vs)
    (hok : upsertAll (preIndex st doc.id)
        (List.zipWith (recordOfChunk doc) (chunksOf cfg doc) vs) = .ok idx1) :
    ingest cfg st doc
      = { index := idx1, statuses := (doc.id, .completed) :: st.statuses } := by
  unfold ingest
  simp only [hemb, hok]

/-- C2: re-ingestion replaces, never duplicates.  Starting from a state
whose index holds no records keyed under document id `d`, ingest `doc1`
(id `d`), then re-ingest `doc2` (same id, possibly edited content):
provided the second run's embeddings succeed with vectors of the index's
dimension, the index afterwards contains exactly the records of `doc2`'s
chunks under that document id — none of the first generation's records —
and the document's status is completed; the stale records were removed by
the `delete_document` that re-ingestion of a completed or failed document
performs first. -/
theorem C2_reingest_replaces (cfg1 cfg2 : IngestConfig) (s0 : PipelineState)
    (doc1 doc2 : Document) (hid : doc2.id = doc1.id)
    (h0k : ∀ r ∈ s0.index.records, r.chunk_id.1 ≠ doc1.id)
    (vs2 : List (List Rat))
    (hemb : embed_batch cfg2.embed
        ((chunksOf cfg2 doc2).map fun c => String.mk c.text) = some vs2)
    (hdims : ∀ v ∈ vs2, v.length = s0.index.dim) :
    ((ingest cfg2 (ingest cfg1 s0 doc1) doc2).index.records.filter
        fun r => r.document_id == doc2.id)
      = List.zipWith (recordOfChunk doc2) (chunksOf cfg2 doc2) vs2 ∧
      statusOf (ingest cfg2 (ingest cfg1 s0 doc1) doc2) doc2.id
        = some .completed := by
  have hnon0 : ∀ e ∈ s0.index.records,
      e.document_id ≠ doc1.id → e.chunk_id.1 ≠ doc1.id :=
    fun e he _ => h0k e he
  obtain ⟨hf1, hn1⟩ := ingest_nonown cfg1 s0 doc1 hnon0
  set s1 := ingest cfg1 s0 doc1 with hs1
  have hstat : statusOf s1 doc2.id = some .completed ∨
      statusOf s1 doc2.id = some .failed := by
    rw [hid]
    exact ingest_status cfg1 s0 doc1
  have hpre : preIndex s1 doc2.id = s1.index.delete_document doc2.id := by
    unfold preIndex
    rw [if_pos hstat]
  have hidx0_mem : ∀ e ∈ (s1.index.delete_document doc2.id).records,
      e.document_id ≠ doc2.id ∧ e.chunk_id.1 ≠ doc2.id := by
    intro e he
    have he' : e ∈ s1.index.records.filter
        (fun x => x.document_id != doc2.id) := he
    have hmem := (List.mem_filter.mp he').1
    have hne : e.document_id ≠ doc2.id := by
      simpa using (List.mem_filter.mp he').2
    refine ⟨hne, ?_⟩
    rw [hid]
    exact hn1 e hmem (by rw [← hid]; exact hne)
  have hdim0 : (s1.index.delete_document doc2.id).dim = s0.index.dim := by
    show s1.index.dim = s0.index.dim
    exact ingest_dim cfg1 s0 doc1
  have hrecs_pw := zipWith_records_pairwise doc2 (chunksOf cfg2 doc2) vs2
    (chunksOf_seq_pairwise cfg2 doc2)
  have hrecs_dim : ∀ r ∈ List.zipWith (recordOfChunk doc2)
      (chunksOf cfg2 doc2) vs2,
      r.vector.length = (s1.index.delete_document doc2.id).dim := by
    intro r hr
    obtain ⟨_, _, hv⟩ := zipWith_records_fields doc2 _ vs2 r hr
    rw [hdim0]
    exact hdims _ hv
  have hrecs_fresh : ∀ r ∈ List.zipWith (recordOfChunk doc2)
      (chunksOf cfg2 doc2) vs2,
      ∀ e ∈ (s1.index.delete_document doc2.id).records,
        e.chunk_id ≠ r.chunk_id := by
    intro r hr e he heq
    obtain ⟨_, hk2, _⟩ := zipWith_records_fields doc2 _ vs2 r hr
    exact (hidx0_mem e he).2 (by rw [heq, hk2])
  have hups := upsertAll_fresh _ (s1.index.delete_document doc2.id)
    hrecs_dim hrecs_fresh hrecs_pw
  have hing := ingest_success cfg2 s1 doc2 vs2 _ hemb
    (by rw [hpre]; exact hups)
  rw [hing]
  constructor
  · show (((s1.index.delete_document doc2.id).records
        ++ List.zipWith (recordOfChunk doc2) (chunksOf cfg2 doc2) vs2).filter
          fun r => r.document_id == doc2.id) = _
    rw [List.filter_append]
    have hleft : ((s1.index.delete_document doc2.id).records.filter
        fun r => r.document_id == doc2.id) = [] := by
      rw [List.filter_eq_nil_iff]
      intro e he
      simp [(hidx0_mem e he).1]
    rw [hleft, List.nil_append, List.filter_eq_self.mpr]
    intro r hr
    obtain ⟨h1, _, _⟩ := zipWith_records_fields doc2 _ vs2 r hr
    simp [h1]
  · simp [statusOf]

theorem C2_reingest_replaces_witness :
    ((ingest ⟨fun _ => some [1], 10, 2⟩
        (ingest ⟨fun _ => some [1], 10, 2⟩ ⟨VectorIndex.mkEmpty 1, []⟩
          ⟨"d", "src", "One."⟩)
        ⟨"d", "src", "ab"⟩).index.records.filter
        fun r => r.document_id == "d")
      = List.zipWith (recordOfChunk ⟨"d", "src", "ab"⟩)
          (chunksOf ⟨fun _ => some [1], 10, 2⟩ ⟨"d", "src", "ab"⟩) [[1]] ∧
      statusOf (ingest ⟨fun _ => some [1], 10, 2⟩
        (ingest ⟨fun _ => some [1], 10, 2⟩ ⟨VectorIndex.mkEmpty 1, []⟩
          ⟨"d", "src", "One."⟩)
        ⟨"d", "src", "ab"⟩) "d" = some .completed := by
  have hcs : chunksOf ⟨fun _ => some [1], 10, 2⟩ ⟨"d", "src", "ab"⟩
      = [⟨("d", 0), "d", ['a', 'b'], 0, 2, 0⟩] := by
    show chunk "d" ['a', 'b'] 10 2 = _
    rw [chunk, chunkLoop]
    norm_num [cutPoint]
  exact C2_reingest_replaces ⟨fun _ => some [1], 10, 2⟩
    ⟨fun _ => some [1], 10, 2⟩ ⟨VectorIndex.mkEmpty 1, []⟩
    ⟨"d", "src", "One."⟩ ⟨"d", "src", "ab"⟩ rfl (by simp [VectorIndex.mkEmpty])
    [[1]] (by rw [hcs]; rfl) (by simp [VectorIndex.mkEmpty])

theorem C3_search_deterministic_witness :
    ([⟨("d1", 0), "d1", ⟨"d1", "t1"⟩, 1, 0⟩,
      ⟨("d2", 0), "d2", ⟨"d2", "t2"⟩, 1, 1⟩] : List SearchHit).Pairwise
        hitBefore :=
  (C3_search_deterministic
      ⟨1, [⟨("d1", 0), "d1", [1], ⟨"d1", "t1"⟩⟩,
           ⟨("d2", 0), "d2", [1], ⟨"d2", "t2"⟩⟩]⟩ [1] 2).2 _
    (by norm_num [VectorIndex.search, withPos, sortHits, insertHit,
      similarity])

end LegalApp
